import Mathlib

/-!
Shallow embedding of the notebook-to-Markdown converter
(`convert_notebook.py`, function `convert_notebook_to_markdown`) and of the
Markdown image validator (`validate_markdown.py`, functions
`validate_markdown_images` and `collect_debug_info`).

Text is modelled as `List Char`.  Notebook fields that may be either a single
string or a list of string fragments are modelled by `PyText`.  Python's
`base64.b64decode` (with `validate=False`) is modelled after CPython's
`binascii.a2b_base64` in non-strict mode; error messages are modelled by fixed
strings since no checked property depends on their exact wording.  Python's
whitespace notion (`str.strip`, the regex class `\s`) is modelled on its ASCII
fragment, which covers every character the checked properties involve.
-/

/-- Character list of a string literal. -/
def chs (s : String) : List Char := s.toList

/-- Image subtype captured by group 1 of the extraction patterns
`(png|jpeg|jpg)`. -/
inductive ImgType
  | png
  | jpeg
  | jpg
  deriving DecidableEq, Repr

/-- A notebook text field: a single string or a list of fragments
(both shapes are legal in the source document). -/
inductive PyText
  | str (s : List Char)
  | list (l : List (List Char))
  deriving DecidableEq, Repr

/-- Lowercase hexadecimal digit, as used by Python `repr` escapes. -/
def hexDigit (n : Nat) : Char :=
  if n < 10 then Char.ofNat (48 + n) else Char.ofNat (87 + n)

/-- Escape of one character inside a Python string `repr` with quote
character `q` (ASCII fragment of CPython's `unicode_repr`). -/
def pyReprEsc (q c : Char) : List Char :=
  if c = '\\' then ['\\', '\\']
  else if c = q then ['\\', q]
  else if c = '\n' then ['\\', 'n']
  else if c = '\r' then ['\\', 'r']
  else if c = '\t' then ['\\', 't']
  else if c.toNat < 32 ∨ c.toNat = 127 then
    ['\\', 'x', hexDigit (c.toNat / 16), hexDigit (c.toNat % 16)]
  else [c]

/-- Python `repr` of a string: single quotes, or double quotes when the
string contains a single quote but no double quote. -/
def pyReprStr (s : List Char) : List Char :=
  let q := if '\'' ∈ s ∧ '"' ∉ s then '"' else '\''
  q :: (s.flatMap (pyReprEsc q) ++ [q])

/-- Python `str()` (= `repr`) of a list of strings, as produced when a list
is interpolated into an f-string: `['a', 'b']`. -/
def pyReprList (l : List (List Char)) : List Char :=
  '[' :: (List.intercalate (chs ", ") (l.map pyReprStr) ++ [']'])

/-- Value interpolated by an f-string for a string-or-list field: a string
interpolates verbatim, a list interpolates as its Python `repr`.  This is
what `f"![output](data:image/png;base64,{image_data})"` does to
`image_data`. -/
def pyFStr : PyText → List Char
  | .str s => s
  | .list l => pyReprList l

/-- Normalisation `''.join(x) if isinstance(x, list) else x` used by the
source for code/stream/svg/html/plain fields. -/
def pyJoin : PyText → List Char
  | .str s => s
  | .list l => l.flatten

/-- ASCII fragment of Python's whitespace (`str.strip`, regex `\s`). -/
def pyIsSpace (c : Char) : Bool :=
  c == ' ' || c == '\t' || c == '\n' || c == '\r' ||
  c == Char.ofNat 11 || c == Char.ofNat 12

/-- Python `str.strip()`. -/
def pyStrip (cs : List Char) : List Char :=
  ((cs.dropWhile pyIsSpace).reverse.dropWhile pyIsSpace).reverse

/-- Python `str.rstrip()`. -/
def pyRstrip (cs : List Char) : List Char :=
  (cs.reverse.dropWhile pyIsSpace).reverse

/-- Python `'\n'.join(lines)`. -/
def joinNl : List (List Char) → List Char
  | [] => []
  | [l] => l
  | l :: ls => l ++ '\n' :: joinNl ls

/-- Payload mapping of an `execute_result`/`display_data` output, restricted
to the five MIME keys the renderer inspects (`'image/png'`, `'image/jpeg'`,
`'image/svg+xml'`, `'text/html'`, `'text/plain'`); a `none` field means the
key is absent from the `data` dict. -/
structure OutputData where
  png : Option PyText
  jpeg : Option PyText
  svg : Option PyText
  html : Option PyText
  plain : Option PyText
  deriving DecidableEq, Repr

/-- One entry of a code cell's `outputs` list, by its `output_type`.
`execute_result` and `display_data` take the same branch in the source and
are modelled by the single constructor `display`. -/
inductive NbOutput
  | stream (text : PyText)
  | display (data : OutputData)
  | error (traceback : List (List Char))
  | other
  deriving DecidableEq, Repr

/-- One notebook cell, by its `cell_type`. -/
inductive NbCell
  | markdown (source : PyText)
  | code (source : PyText) (outputs : List NbOutput)
  | other
  deriving DecidableEq, Repr

/-- A notebook document: its `cells` list (`notebook.get('cells', [])`). -/
structure Notebook where
  cells : List NbCell
  deriving DecidableEq, Repr

/-- Markdown lines appended for one output (`convert_notebook.py`
lines 101-165).  The image branches interpolate the raw payload value into
an f-string without joining fragment lists; the svg/html/plain branches join
fragment lists first, exactly as the source does. -/
def renderOutput : NbOutput → List (List Char)
  | .stream t =>
    let text := pyJoin t
    if pyStrip text ≠ [] then [chs "```", pyRstrip text, chs "```", []] else []
  | .display d =>
    match d.png with
    | some img => [chs "![output](data:image/png;base64," ++ pyFStr img ++ [')'], []]
    | none =>
      match d.jpeg with
      | some img => [chs "![output](data:image/jpeg;base64," ++ pyFStr img ++ [')'], []]
      | none =>
        match d.svg with
        | some v => [pyJoin v, []]
        | none =>
          match d.html with
          | some v => [pyJoin v, []]
          | none =>
            match d.plain with
            | some v =>
              let text := pyJoin v
              if pyStrip text ≠ [] then [chs "```", pyRstrip text, chs "```", []] else []
            | none => []
  | .error tb => if tb ≠ [] then [chs "```python", joinNl tb, chs "```", []] else []
  | .other => []

/-- Markdown lines appended for one cell (`convert_notebook.py`
lines 72-165).  A markdown cell's fragment list is `extend`ed onto the line
list (one entry per fragment); a code cell's source is joined, emitted as a
fenced block when non-blank, and its outputs are processed either way. -/
def renderCell : NbCell → List (List Char)
  | .markdown src => (match src with | .list l => l | .str s => [s]) ++ [[]]
  | .code src outs =>
    let code := pyJoin src
    (if pyStrip code ≠ [] then [chs "```python", pyRstrip code, chs "```", []] else [])
      ++ outs.flatMap renderOutput
  | .other => []

/-- Jekyll front-matter lines (`convert_notebook.py` lines 61-69); the tag
list is interpolated as its Python `repr`. -/
def frontMatterLines (title categories : List Char) (tags : List (List Char)) :
    List (List Char) :=
  [chs "---", chs "layout: single", chs "title: \"" ++ title ++ ['"'],
   chs "categories: " ++ categories, chs "tag: " ++ pyReprList tags,
   chs "toc: true", chs "author_profile: false", chs "---", []]

/-- The produced Markdown artifact: `'\n'.join(markdown_lines)` over the
front matter followed by every cell's lines
(`convert_notebook.py` lines 58-168).  File-system side effects and the
title/path defaulting are outside the modelled core. -/
def convert_notebook_to_markdown (nb : Notebook) (title categories : List Char)
    (tags : List (List Char)) : List Char :=
  joinNl (frontMatterLines title categories tags ++ nb.cells.flatMap renderCell)

/-- Membership in the strict token class `[A-Za-z0-9+/=]` of the extraction
pattern in `validate_markdown_images` (line 32). -/
def base64Char (c : Char) : Bool :=
  (('A' ≤ c && c ≤ 'Z') || ('a' ≤ c && c ≤ 'z') || ('0' ≤ c && c ≤ '9') ||
   c == '+' || c == '/' || c == '=')

/-- Membership in the lenient token class `[A-Za-z0-9+/=\n\r\s]` of the
diagnostic pattern in `collect_debug_info` (line 236). -/
def lenChar (c : Char) : Bool :=
  base64Char c || pyIsSpace c

/-- Match a literal character sequence, returning the remaining input. -/
def dropLit : List Char → List Char → Option (List Char)
  | [], cs => some cs
  | _ :: _, [] => none
  | p :: ps, c :: cs => if c = p then dropLit ps cs else none

/-- Match the alternation-plus-literal `(png|jpeg|jpg);base64,`.  The three
alternatives are mutually exclusive at any input position, so the regex
engine's ordered alternation reduces to trying the three combined literals
in order. -/
def matchMime (cs : List Char) : Option (ImgType × List Char) :=
  match dropLit (chs "png;base64,") cs with
  | some r => some (.png, r)
  | none =>
    match dropLit (chs "jpeg;base64,") cs with
    | some r => some (.jpeg, r)
    | none =>
      match dropLit (chs "jpg;base64,") cs with
      | some r => some (.jpg, r)
      | none => none

/-- Match `](data:image/(png|jpeg|jpg);base64,([A-Za-z0-9+/=]+))` at the
start of the input: the fixed tail of the strict pattern after the lazy
alt-text part.  The greedy token run must be non-empty and be followed
immediately by `)`; since `)` is not in the token class, greedy matching
with backtracking accepts exactly the maximal run. -/
def matchClose (cs : List Char) : Option (ImgType × List Char × List Char) :=
  match dropLit (chs "](data:image/") cs with
  | none => none
  | some cs1 =>
    match matchMime cs1 with
    | none => none
    | some (ty, cs2) =>
      let tok := cs2.takeWhile base64Char
      if tok = [] then none
      else
        match cs2.dropWhile base64Char with
        | c :: rest => if c = ')' then some (ty, tok, rest) else none
        | [] => none

/-- Lazy expansion of `.*?` after `![`: at each position first try the fixed
tail, then consume one more (non-newline) character, exactly the
backtracking order of a lazy `.*?` under `re` default flags (where `.` does
not match a newline). -/
def matchTail : List Char → Option (ImgType × List Char × List Char)
  | [] => none
  | c :: cs =>
    match matchClose (c :: cs) with
    | some r => some r
    | none => if c = '\n' then none else matchTail cs

/-- Attempt of the whole strict pattern at the current position: the literal
`![` followed by the lazy part. -/
def matchBang : List Char → Option (ImgType × List Char × List Char)
  | c1 :: c2 :: cs => if c1 = '!' ∧ c2 = '[' then matchTail cs else none
  | _ => none

/-- Fuel-indexed scan of `re.finditer` with the strict pattern: try a match
at each position, and continue after the end of each (non-overlapping)
match.  The fuel only serves structural recursion; `cs.length` is always
enough. -/
def findAllF : Nat → List Char → List (ImgType × List Char)
  | 0, _ => []
  | _ + 1, [] => []
  | fuel + 1, c :: cs =>
    match matchBang (c :: cs) with
    | some (ty, tok, rest) => (ty, tok) :: findAllF fuel rest
    | none => findAllF fuel cs

/-- All matches of the strict image pattern, in document order: the match
list of `re.finditer(pattern, content)` at `validate_markdown.py` line 34,
each match reduced to its two capture groups. -/
def findAll (cs : List Char) : List (ImgType × List Char) :=
  findAllF cs.length cs

/-- Lenient variant of `matchClose` with token class `[A-Za-z0-9+/=\n\r\s]`
(`collect_debug_info`, line 236). -/
def lenMatchClose (cs : List Char) : Option (ImgType × List Char × List Char) :=
  match dropLit (chs "](data:image/") cs with
  | none => none
  | some cs1 =>
    match matchMime cs1 with
    | none => none
    | some (ty, cs2) =>
      let tok := cs2.takeWhile lenChar
      if tok = [] then none
      else
        match cs2.dropWhile lenChar with
        | c :: rest => if c = ')' then some (ty, tok, rest) else none
        | [] => none

/-- Lenient variant of `matchTail`. -/
def lenMatchTail : List Char → Option (ImgType × List Char × List Char)
  | [] => none
  | c :: cs =>
    match lenMatchClose (c :: cs) with
    | some r => some r
    | none => if c = '\n' then none else lenMatchTail cs

/-- Lenient variant of `matchBang`. -/
def lenMatchBang : List Char → Option (ImgType × List Char × List Char)
  | c1 :: c2 :: cs => if c1 = '!' ∧ c2 = '[' then lenMatchTail cs else none
  | _ => none

/-- Lenient variant of `findAllF`. -/
def lenFindAllF : Nat → List Char → List (ImgType × List Char)
  | 0, _ => []
  | _ + 1, [] => []
  | fuel + 1, c :: cs =>
    match lenMatchBang (c :: cs) with
    | some (ty, tok, rest) => (ty, tok) :: lenFindAllF fuel rest
    | none => lenFindAllF fuel cs

/-- All matches of the lenient diagnostic pattern, in document order. -/
def lenFindAll (cs : List Char) : List (ImgType × List Char) :=
  lenFindAllF cs.length cs

/-- Value of one base64 alphabet character (`binascii`'s
`table_a2b_base64`); `none` for every character outside the alphabet. -/
def b64Val (c : Char) : Option Nat :=
  if 'A' ≤ c ∧ c ≤ 'Z' then some (c.toNat - 65)
  else if 'a' ≤ c ∧ c ≤ 'z' then some (c.toNat - 97 + 26)
  else if '0' ≤ c ∧ c ≤ '9' then some (c.toNat - 48 + 52)
  else if c = '+' then some 62
  else if c = '/' then some 63
  else none

/-- CPython `binascii.a2b_base64` in non-strict mode, which is what
`base64.b64decode(s)` runs: characters outside the alphabet are discarded, a
`=` is ignored before two data characters of a quad and completes the input
once the quad is padded to four, and a trailing partial quad is an error.
State: remaining input, position inside the current quad, carried bits,
count of pending pad characters, reversed output accumulator. -/
def a2b : List Char → Nat → Nat → Nat → List Nat → Except String (List Nat)
  | [], quadPos, _, _, acc =>
    if quadPos = 0 then .ok acc.reverse
    else if quadPos = 1 then
      .error "Invalid base64-encoded string: number of data characters cannot be 1 more than a multiple of 4"
    else .error "Incorrect padding"
  | c :: cs, quadPos, leftchar, pads, acc =>
    if c = '=' then
      if 2 ≤ quadPos then
        if 4 ≤ quadPos + (pads + 1) then .ok acc.reverse
        else a2b cs quadPos leftchar (pads + 1) acc
      else a2b cs quadPos leftchar pads acc
    else
      match b64Val c with
      | none => a2b cs quadPos leftchar pads acc
      | some v =>
        match quadPos with
        | 0 => a2b cs 1 v 0 acc
        | 1 => a2b cs 2 (v % 16) 0 ((leftchar * 4 + v / 16) :: acc)
        | 2 => a2b cs 3 (v % 4) 0 ((leftchar * 16 + v / 4) :: acc)
        | _ => a2b cs 0 0 0 ((leftchar * 64 + v) :: acc)

/-- Python `base64.b64decode(s)` (default `validate=False`), on text input;
bytes are modelled as `Nat` values below 256. -/
def pyB64decode (cs : List Char) : Except String (List Nat) :=
  a2b cs 0 0 0 []

/-- The fixed 8-byte PNG signature `b'\x89PNG\r\n\x1a\n'`. -/
def pngSig : List Nat := [137, 80, 78, 71, 13, 10, 26, 10]

/-- The 2-byte JPEG start-of-image marker `b'\xff\xd8'`. -/
def jpegSig : List Nat := [255, 216]

/-- Error entry for a token holding a newline
(`validate_markdown.py` lines 56-58: the f-string keeps the two leading
spaces of the printed message). -/
def nlErrMsg (i : Nat) : String :=
  "Image " ++ toString i ++ ":   ❌ Contains newline characters"

/-- Error entry for a failed base64 decode (lines 92-95). -/
def decodeErrMsg (i : Nat) (e : String) : String :=
  "Image " ++ toString i ++ ": Failed to decode base64: " ++ e

/-- Error entry for a wrong PNG header (lines 77-79). -/
def pngHdrErrMsg (i : Nat) : String :=
  "Image " ++ toString i ++ ": Invalid PNG header"

/-- Error entry for a wrong JPEG header (lines 87-89). -/
def jpegHdrErrMsg (i : Nat) : String :=
  "Image " ++ toString i ++ ": Invalid JPEG header"

/-- The `results` dict of `validate_markdown_images`.  `image_sizes` records
decoded byte counts; the source stores `len(decoded)/1024` as a float, a
bijective rescaling of the byte count. -/
structure VResults where
  total_images : Nat
  valid_images : Nat
  invalid_images : Nat
  errors : List String
  image_sizes : List Nat
  deriving DecidableEq, Repr

/-- The per-image loop of `validate_markdown_images` (lines 48-98), as state
passing over the `results` dict: newline check first, then decode attempt
(its failure caught per image), then the format-specific header check. -/
def valLoop : Nat → List (ImgType × List Char) → VResults → VResults
  | _, [], acc => acc
  | i, (ty, tok) :: ms, acc =>
    if '\n' ∈ tok ∨ '\r' ∈ tok then
      valLoop (i + 1) ms
        { acc with errors := acc.errors ++ [nlErrMsg i],
                   invalid_images := acc.invalid_images + 1 }
    else
      match pyB64decode tok with
      | .error e =>
        valLoop (i + 1) ms
          { acc with errors := acc.errors ++ [decodeErrMsg i e],
                     invalid_images := acc.invalid_images + 1 }
      | .ok decoded =>
        let acc1 := { acc with image_sizes := acc.image_sizes ++ [decoded.length] }
        match ty with
        | .png =>
          if decoded.take 8 = pngSig then
            valLoop (i + 1) ms { acc1 with valid_images := acc1.valid_images + 1 }
          else
            valLoop (i + 1) ms
              { acc1 with errors := acc1.errors ++ [pngHdrErrMsg i],
                          invalid_images := acc1.invalid_images + 1 }
        | _ =>
          if decoded.take 2 = jpegSig then
            valLoop (i + 1) ms { acc1 with valid_images := acc1.valid_images + 1 }
          else
            valLoop (i + 1) ms
              { acc1 with errors := acc1.errors ++ [jpegHdrErrMsg i],
                          invalid_images := acc1.invalid_images + 1 }

/-- `validate_markdown_images` on already-loaded Markdown text: extract the
strict matches, then run the per-image loop over an initial report with
`total_images` fixed to the match count (lines 31-123; printing omitted). -/
def validate_markdown_images (content : List Char) : VResults :=
  let ms := findAll content
  valLoop 1 ms
    { total_images := ms.length, valid_images := 0, invalid_images := 0,
      errors := [], image_sizes := [] }

/-- The cleaning `b64_data.strip().replace('\n', '').replace('\r', '')
.replace(' ', '')` applied by `collect_debug_info` (line 256) before its
decode attempt. -/
def pyClean (tok : List Char) : List Char :=
  (((pyStrip tok).filter (fun c => c ≠ '\n')).filter (fun c => c ≠ '\r')).filter
    (fun c => c ≠ ' ')

/-- The decode attempted by `collect_debug_info` (line 257) on one
leniently-extracted token. -/
def debugDecode (tok : List Char) : Except String (List Nat) :=
  pyB64decode (pyClean tok)

/-- Modelled from the spec's words for comparison (section 4.6: "after
stripping all whitespace — attempts decode"): removal of every whitespace
character from the token. -/
def stripAllWs (tok : List Char) : List Char :=
  tok.filter (fun c => pyIsSpace c = false)

deriving instance DecidableEq for Except

/-! Basic lemmas about the scanning primitives. -/

theorem takeWhile_append_neg {α : Type} {p : α → Bool} {c : α} (h : p c = false)
    (xs ys : List α) : (xs ++ c :: ys).takeWhile p = xs.takeWhile p := by
  induction xs with
  | nil => simp [List.takeWhile_cons, h]
  | cons x xs ih =>
    by_cases hx : p x <;> simp [List.takeWhile_cons, hx, ih]

theorem dropWhile_append_neg {α : Type} {p : α → Bool} {c : α} (h : p c = false)
    (xs ys : List α) : (xs ++ c :: ys).dropWhile p = xs.dropWhile p ++ c :: ys := by
  induction xs with
  | nil => simp [List.dropWhile_cons, h]
  | cons x xs ih =>
    by_cases hx : p x <;> simp [List.dropWhile_cons, hx, ih]

theorem takeWhile_all {α : Type} (p : α → Bool) (l : List α) :
    (l.takeWhile p).all p = true := by
  induction l with
  | nil => rfl
  | cons x xs ih =>
    by_cases hx : p x <;> simp [List.takeWhile_cons, hx, ih]

theorem takeWhile_of_all {α : Type} {p : α → Bool} {l : List α}
    (h : l.all p = true) : l.takeWhile p = l := by
  induction l with
  | nil => rfl
  | cons x xs ih =>
    simp only [List.all_cons, Bool.and_eq_true] at h
    simp [List.takeWhile_cons, h.1, ih h.2]

theorem dropWhile_of_all {α : Type} {p : α → Bool} {l : List α}
    (h : l.all p = true) : l.dropWhile p = [] := by
  induction l with
  | nil => rfl
  | cons x xs ih =>
    simp only [List.all_cons, Bool.and_eq_true] at h
    simp [List.dropWhile_cons, h.1, ih h.2]

theorem dropWhile_length_le {α : Type} (p : α → Bool) (l : List α) :
    (l.dropWhile p).length ≤ l.length := by
  induction l with
  | nil => simp
  | cons x xs ih =>
    by_cases hx : p x <;> simp [List.dropWhile_cons, hx] <;> omega

theorem dropLit_some_append {p xs r : List Char} (h : dropLit p xs = some r)
    (zs : List Char) : dropLit p (xs ++ zs) = some (r ++ zs) := by
  induction p generalizing xs with
  | nil => simp [dropLit] at h ⊢; rw [h]
  | cons q ps ih =>
    cases xs with
    | nil => simp [dropLit] at h
    | cons x xs =>
      simp only [dropLit, List.cons_append] at h ⊢
      by_cases hx : x = q
      · simp only [hx, if_pos rfl] at h ⊢; exact ih h
      · simp [hx] at h

theorem dropLit_none_nl {p xs : List Char} (hp : '\n' ∉ p)
    (h : dropLit p xs = none) (ys : List Char) :
    dropLit p (xs ++ '\n' :: ys) = none := by
  induction p generalizing xs with
  | nil => simp [dropLit] at h
  | cons q ps ih =>
    cases xs with
    | nil =>
      have hq : ('\n' : Char) ≠ q := fun e => hp (e ▸ List.mem_cons_self q ps)
      simp [dropLit, hq]
    | cons x xs =>
      simp only [dropLit, List.cons_append] at h ⊢
      by_cases hx : x = q
      · simp only [hx, if_pos rfl] at h ⊢
        exact ih (fun m => hp (List.mem_cons_of_mem q m)) h
      · simp [hx]

theorem dropLit_length {p xs r : List Char} (h : dropLit p xs = some r) :
    r.length + p.length = xs.length := by
  induction p generalizing xs with
  | nil => simp [dropLit] at h; simp [h]
  | cons q ps ih =>
    cases xs with
    | nil => simp [dropLit] at h
    | cons x xs =>
      simp only [dropLit] at h
      by_cases hx : x = q
      · simp only [hx, if_pos rfl] at h
        have := ih h
        simp [List.length_cons]
        omega
      · simp [hx] at h

theorem matchMime_append_nl (xs ys : List Char) :
    matchMime (xs ++ '\n' :: ys) =
      (matchMime xs).map (fun tr => (tr.1, tr.2 ++ '\n' :: ys)) := by
  unfold matchMime
  cases h1 : dropLit (chs "png;base64,") xs with
  | some r => rw [dropLit_some_append h1]; rfl
  | none =>
    rw [dropLit_none_nl (by decide) h1]
    cases h2 : dropLit (chs "jpeg;base64,") xs with
    | some r => rw [dropLit_some_append h2]; rfl
    | none =>
      rw [dropLit_none_nl (by decide) h2]
      cases h3 : dropLit (chs "jpg;base64,") xs with
      | some r => rw [dropLit_some_append h3]; rfl
      | none => rw [dropLit_none_nl (by decide) h3]; rfl

theorem matchMime_length {xs : List Char} {ty : ImgType} {r : List Char}
    (h : matchMime xs = some (ty, r)) : r.length < xs.length := by
  unfold matchMime at h
  have e1 : (chs "png;base64,").length = 11 := rfl
  have e2 : (chs "jpeg;base64,").length = 12 := rfl
  have e3 : (chs "jpg;base64,").length = 11 := rfl
  cases h1 : dropLit (chs "png;base64,") xs with
  | some r1 =>
    rw [h1] at h
    have := dropLit_length h1
    simp at h
    obtain ⟨-, htok⟩ := h
    subst htok
    omega
  | none =>
    rw [h1] at h
    cases h2 : dropLit (chs "jpeg;base64,") xs with
    | some r2 =>
      rw [h2] at h
      have := dropLit_length h2
      simp at h
      obtain ⟨-, htok⟩ := h
      subst htok
      omega
    | none =>
      rw [h2] at h
      cases h3 : dropLit (chs "jpg;base64,") xs with
      | some r3 =>
        rw [h3] at h
        have := dropLit_length h3
        simp at h
        obtain ⟨-, htok⟩ := h
        subst htok
        omega
      | none => rw [h3] at h; exact absurd h (by simp)

theorem matchClose_append_nl (xs ys : List Char) :
    matchClose (xs ++ '\n' :: ys) =
      (matchClose xs).map (fun r => (r.1, r.2.1, r.2.2 ++ '\n' :: ys)) := by
  unfold matchClose
  cases h1 : dropLit (chs "](data:image/") xs with
  | none => rw [dropLit_none_nl (by decide) h1]; rfl
  | some cs1 =>
    rw [dropLit_some_append h1]
    dsimp only
    rw [matchMime_append_nl]
    cases h2 : matchMime cs1 with
    | none => simp
    | some tyr =>
      obtain ⟨ty, cs2⟩ := tyr
      simp only [Option.map_some']
      rw [takeWhile_append_neg (by decide) cs2 ys,
          dropWhile_append_neg (by decide) cs2 ys]
      by_cases he : cs2.takeWhile base64Char = []
      · simp [he]
      · rw [if_neg he, if_neg he]
        cases hd : cs2.dropWhile base64Char with
        | nil => simp
        | cons c rest =>
          by_cases hc : c = ')'
          · simp [hc]
          · simp [hc]

theorem matchClose_length {xs : List Char} {ty : ImgType} {tok rest : List Char}
    (h : matchClose xs = some (ty, tok, rest)) : rest.length < xs.length := by
  unfold matchClose at h
  cases h1 : dropLit (chs "](data:image/") xs with
  | none => rw [h1] at h; exact absurd h (by simp)
  | some cs1 =>
    rw [h1] at h
    dsimp only at h
    cases h2 : matchMime cs1 with
    | none => rw [h2] at h; exact absurd h (by simp)
    | some tyr =>
      obtain ⟨ty2, cs2⟩ := tyr
      rw [h2] at h
      dsimp only at h
      have hm : cs2.length < cs1.length := matchMime_length h2
      have hlit : (chs "](data:image/").length = 13 := rfl
      have h1l := dropLit_length h1
      by_cases he : cs2.takeWhile base64Char = []
      · simp [he] at h
      · rw [if_neg he] at h
        cases hd : cs2.dropWhile base64Char with
        | nil => rw [hd] at h; exact absurd h (by simp)
        | cons c r2 =>
          rw [hd] at h
          dsimp only at h
          by_cases hc : c = ')'
          · rw [if_pos hc] at h
            simp only [Option.some_inj, Prod.mk.injEq] at h
            obtain ⟨-, -, hrest⟩ := h
            subst hrest
            have hdw := dropWhile_length_le base64Char cs2
            rw [hd] at hdw
            simp only [List.length_cons] at hdw
            omega
          · rw [if_neg hc] at h; exact absurd h (by simp)

theorem matchTail_cons (c : Char) (cs : List Char) :
    matchTail (c :: cs) =
      match matchClose (c :: cs) with
      | some r => some r
      | none => if c = '\n' then none else matchTail cs := rfl

theorem matchTail_append_nl (xs ys : List Char) :
    matchTail (xs ++ '\n' :: ys) =
      (matchTail xs).map (fun r => (r.1, r.2.1, r.2.2 ++ '\n' :: ys)) := by
  induction xs with
  | nil =>
    simp only [List.nil_append]
    have hc : matchClose ('\n' :: ys) = none := by
      unfold matchClose
      rw [show chs "](data:image/" = ']' :: chs "(data:image/" from rfl]
      rw [show dropLit (']' :: chs "(data:image/") ('\n' :: ys) = none from by
        simp [dropLit]]
    rw [matchTail_cons, hc]
    simp [matchTail]
  | cons x xs ih =>
    cases hm : matchClose (x :: xs) with
    | some r =>
      have hsome : matchClose (x :: (xs ++ '\n' :: ys)) =
          some (r.1, r.2.1, r.2.2 ++ '\n' :: ys) := by
        rw [← List.cons_append, matchClose_append_nl, hm]; rfl
      rw [List.cons_append, matchTail_cons, hsome, matchTail_cons, hm]
      rfl
    | none =>
      have hnone : matchClose (x :: (xs ++ '\n' :: ys)) = none := by
        rw [← List.cons_append, matchClose_append_nl, hm]; rfl
      rw [List.cons_append, matchTail_cons, hnone, matchTail_cons, hm]
      by_cases hx : x = '\n'
      · simp [hx]
      · simp only [if_neg hx]; exact ih

theorem matchTail_length {xs : List Char} {ty : ImgType} {tok rest : List Char}
    (h : matchTail xs = some (ty, tok, rest)) : rest.length < xs.length := by
  induction xs with
  | nil => simp [matchTail] at h
  | cons x xs ih =>
    rw [matchTail_cons] at h
    cases hm : matchClose (x :: xs) with
    | some r =>
      rw [hm] at h
      obtain rfl : r = (ty, tok, rest) := by simpa using h
      exact matchClose_length hm
    | none =>
      rw [hm] at h
      by_cases hx : x = '\n'
      · rw [if_pos hx] at h; exact absurd h (by simp)
      · rw [if_neg hx] at h
        have := ih h
        simp only [List.length_cons]
        omega

theorem matchBang_cons2 (c1 c2 : Char) (cs : List Char) :
    matchBang (c1 :: c2 :: cs) =
      if c1 = '!' ∧ c2 = '[' then matchTail cs else none := rfl

theorem matchBang_append_nl (xs ys : List Char) :
    matchBang (xs ++ '\n' :: ys) =
      (matchBang xs).map (fun r => (r.1, r.2.1, r.2.2 ++ '\n' :: ys)) := by
  cases xs with
  | nil =>
    simp only [List.nil_append]
    cases ys with
    | nil => rfl
    | cons y ys => rw [matchBang_cons2]; simp [matchBang]
  | cons c xs =>
    cases xs with
    | nil =>
      simp only [List.cons_append, List.nil_append]
      rw [matchBang_cons2]
      simp [matchBang]
    | cons c2 cs =>
      simp only [List.cons_append]
      rw [matchBang_cons2, matchBang_cons2]
      by_cases hb : c = '!' ∧ c2 = '['
      · rw [if_pos hb, if_pos hb, matchTail_append_nl]
      · rw [if_neg hb, if_neg hb]; rfl

theorem matchBang_length {xs : List Char} {ty : ImgType} {tok rest : List Char}
    (h : matchBang xs = some (ty, tok, rest)) : rest.length < xs.length := by
  cases xs with
  | nil => simp [matchBang] at h
  | cons c xs =>
    cases xs with
    | nil => simp [matchBang] at h
    | cons c2 cs =>
      rw [matchBang_cons2] at h
      by_cases hb : c = '!' ∧ c2 = '['
      · rw [if_pos hb] at h
        have := matchTail_length h
        simp only [List.length_cons]
        omega
      · rw [if_neg hb] at h; exact absurd h (by simp)

theorem findAllF_cons (fuel : Nat) (c : Char) (cs : List Char) :
    findAllF (fuel + 1) (c :: cs) =
      match matchBang (c :: cs) with
      | some (ty, tok, rest) => (ty, tok) :: findAllF fuel rest
      | none => findAllF fuel cs := rfl

theorem findAllF_congr : ∀ (n : Nat) (cs : List Char) (f1 f2 : Nat),
    cs.length ≤ n → cs.length ≤ f1 → cs.length ≤ f2 →
    findAllF f1 cs = findAllF f2 cs := by
  intro n
  induction n with
  | zero =>
    intro cs f1 f2 h0 _ _
    have : cs = [] := List.eq_nil_of_length_eq_zero (Nat.le_zero.mp h0)
    subst this
    cases f1 <;> cases f2 <;> rfl
  | succ n ih =>
    intro cs f1 f2 h0 h1 h2
    cases cs with
    | nil => cases f1 <;> cases f2 <;> rfl
    | cons c cs =>
      simp only [List.length_cons] at h0 h1 h2
      cases f1 with
      | zero => omega
      | succ g1 =>
        cases f2 with
        | zero => omega
        | succ g2 =>
          rw [findAllF_cons, findAllF_cons]
          cases hm : matchBang (c :: cs) with
          | some r =>
            obtain ⟨ty, tok, rest⟩ := r
            have hr := matchBang_length hm
            simp only [List.length_cons] at hr
            simp only [hm]
            congr 1
            exact ih rest g1 g2 (by omega) (by omega) (by omega)
          | none =>
            simp only [hm]
            exact ih cs g1 g2 (by omega) (by omega) (by omega)

theorem findAll_nil : findAll [] = [] := rfl

theorem findAll_cons (c : Char) (cs : List Char) :
    findAll (c :: cs) =
      match matchBang (c :: cs) with
      | some (ty, tok, rest) => (ty, tok) :: findAll rest
      | none => findAll cs := by
  show findAllF (cs.length + 1) (c :: cs) = _
  rw [findAllF_cons]
  cases hm : matchBang (c :: cs) with
  | some r =>
    obtain ⟨ty, tok, rest⟩ := r
    have hr := matchBang_length hm
    simp only [List.length_cons] at hr
    simp only [hm]
    congr 1
    exact findAllF_congr cs.length rest cs.length rest.length (by omega) (by omega)
      (Nat.le_refl _)
  | none => simp only [hm]; rfl

theorem matchBang_nl_head (ys : List Char) : matchBang ('\n' :: ys) = none := by
  cases ys with
  | nil => rfl
  | cons y ys => rw [matchBang_cons2]; simp

theorem findAll_append_nl_aux : ∀ (n : Nat) (xs ys : List Char), xs.length ≤ n →
    findAll (xs ++ '\n' :: ys) = findAll xs ++ findAll ys := by
  intro n
  induction n with
  | zero =>
    intro xs ys h0
    have : xs = [] := List.eq_nil_of_length_eq_zero (Nat.le_zero.mp h0)
    subst this
    rw [List.nil_append, findAll_cons, matchBang_nl_head, findAll_nil, List.nil_append]
  | succ n ih =>
    intro xs ys h0
    cases xs with
    | nil =>
      rw [List.nil_append, findAll_cons, matchBang_nl_head, findAll_nil, List.nil_append]
    | cons c xs =>
      simp only [List.length_cons] at h0
      rw [List.cons_append, findAll_cons]
      have hb := matchBang_append_nl (c :: xs) ys
      rw [List.cons_append] at hb
      cases hm : matchBang (c :: xs) with
      | some r =>
        obtain ⟨ty, tok, rest⟩ := r
        rw [hm] at hb
        simp only [Option.map_some'] at hb
        rw [hb]
        dsimp only
        have hr := matchBang_length hm
        simp only [List.length_cons] at hr
        rw [findAll_cons c xs, hm, ih rest ys (by omega)]
        simp
      | none =>
        rw [hm] at hb
        simp only [Option.map_none'] at hb
        rw [hb]
        dsimp only
        rw [ih xs ys (by omega), findAll_cons c xs, hm]

theorem findAll_append_newline (xs ys : List Char) :
    findAll (xs ++ '\n' :: ys) = findAll xs ++ findAll ys :=
  findAll_append_nl_aux xs.length xs ys (Nat.le_refl _)

theorem findAll_joinNl (ls : List (List Char)) :
    findAll (joinNl ls) = ls.flatMap findAll := by
  induction ls with
  | nil => rfl
  | cons l ls ih =>
    cases ls with
    | nil => simp [joinNl]
    | cons l2 ls2 =>
      rw [show joinNl (l :: l2 :: ls2) = l ++ '\n' :: joinNl (l2 :: ls2) from rfl]
      rw [findAll_append_newline, ih]
      simp [List.flatMap_cons]

theorem dropLit_exact (lit rest : List Char) : dropLit lit (lit ++ rest) = some rest := by
  induction lit with
  | nil => rfl
  | cons q ps ih => simp [dropLit, ih]

theorem dropLit_head_ne {q c : Char} {ps cs : List Char} (h : c ≠ q) :
    dropLit (q :: ps) (c :: cs) = none := by
  simp [dropLit, h]

theorem matchClose_head_ne {c : Char} {cs : List Char} (h : c ≠ ']') :
    matchClose (c :: cs) = none := by
  unfold matchClose
  rw [show chs "](data:image/" = ']' :: chs "(data:image/" from rfl, dropLit_head_ne h]

theorem matchTail_of_close {xs : List Char} {r : ImgType × List Char × List Char}
    (h : matchClose xs = some r) : matchTail xs = some r := by
  cases xs with
  | nil => rw [show matchClose ([] : List Char) = none from rfl] at h; exact absurd h (by simp)
  | cons c cs => rw [matchTail_cons, h]

theorem matchTail_chunk (pre cs : List Char)
    (h : ∀ c ∈ pre, ¬(c = ']') ∧ ¬(c = '\n')) :
    matchTail (pre ++ cs) = matchTail cs := by
  induction pre with
  | nil => rfl
  | cons x pre ih =>
    have hx := h x (List.mem_cons_self x pre)
    have hcl : matchClose (x :: (pre ++ cs)) = none := matchClose_head_ne hx.1
    rw [List.cons_append, matchTail_cons, hcl]
    dsimp only
    rw [if_neg hx.2]
    exact ih (fun c hc => h c (List.mem_cons_of_mem x hc))

theorem matchMime_png (X : List Char) :
    matchMime (chs "png;base64," ++ X) = some (ImgType.png, X) := by
  unfold matchMime
  rw [dropLit_exact]

theorem matchMime_jpeg (X : List Char) :
    matchMime (chs "jpeg;base64," ++ X) = some (ImgType.jpeg, X) := by
  unfold matchMime
  rw [show chs "png;base64," = 'p' :: chs "ng;base64," from rfl,
      show chs "jpeg;base64," ++ X = 'j' :: (chs "peg;base64," ++ X) from rfl,
      dropLit_head_ne (by decide)]
  rw [show ('j' : Char) :: (chs "peg;base64," ++ X) = chs "jpeg;base64," ++ X from rfl,
      dropLit_exact]

theorem matchClose_img {mimeLit : List Char} {ty : ImgType} (p : List Char)
    (hmime : ∀ X, matchMime (mimeLit ++ X) = some (ty, X))
    (hne : p ≠ []) (hall : p.all base64Char = true) :
    matchClose (chs "](data:image/" ++ (mimeLit ++ (p ++ [')']))) = some (ty, p, []) := by
  unfold matchClose
  rw [dropLit_exact]
  dsimp only
  rw [hmime]
  dsimp only
  rw [takeWhile_append_neg (by decide) p [], takeWhile_of_all hall,
      dropWhile_append_neg (by decide) p [], dropWhile_of_all hall]
  rw [if_neg hne]
  simp

theorem findAll_imgLine {mimeLit : List Char} {ty : ImgType} (p : List Char)
    (hmime : ∀ X, matchMime (mimeLit ++ X) = some (ty, X))
    (hne : p ≠ []) (hall : p.all base64Char = true) :
    findAll (chs "![output](data:image/" ++ (mimeLit ++ (p ++ [')']))) = [(ty, p)] := by
  rw [show chs "![output](data:image/" ++ (mimeLit ++ (p ++ [')'])) =
      '!' :: '[' :: (chs "output](data:image/" ++ (mimeLit ++ (p ++ [')']))) from rfl]
  rw [findAll_cons, matchBang_cons2, if_pos ⟨rfl, rfl⟩]
  rw [show chs "output](data:image/" = chs "output" ++ chs "](data:image/" from rfl,
      List.append_assoc]
  rw [matchTail_chunk (chs "output") _ (by decide)]
  rw [matchTail_of_close (matchClose_img p hmime hne hall)]
  dsimp only
  rw [findAll_nil]

theorem matchClose_tok_b64 {xs : List Char} {ty : ImgType} {tok rest : List Char}
    (h : matchClose xs = some (ty, tok, rest)) : tok.all base64Char = true := by
  unfold matchClose at h
  cases h1 : dropLit (chs "](data:image/") xs with
  | none => rw [h1] at h; exact absurd h (by simp)
  | some cs1 =>
    rw [h1] at h
    dsimp only at h
    cases h2 : matchMime cs1 with
    | none => rw [h2] at h; exact absurd h (by simp)
    | some tyr =>
      obtain ⟨ty2, cs2⟩ := tyr
      rw [h2] at h
      dsimp only at h
      by_cases he : cs2.takeWhile base64Char = []
      · simp [he] at h
      · rw [if_neg he] at h
        cases hd : cs2.dropWhile base64Char with
        | nil => rw [hd] at h; exact absurd h (by simp)
        | cons c r2 =>
          rw [hd] at h
          dsimp only at h
          by_cases hc : c = ')'
          · rw [if_pos hc] at h
            simp only [Option.some_inj, Prod.mk.injEq] at h
            obtain ⟨-, htok, -⟩ := h
            rw [← htok]
            exact takeWhile_all base64Char cs2
          · rw [if_neg hc] at h; exact absurd h (by simp)

theorem matchTail_tok_b64 {xs : List Char} {ty : ImgType} {tok rest : List Char}
    (h : matchTail xs = some (ty, tok, rest)) : tok.all base64Char = true := by
  induction xs with
  | nil => simp [matchTail] at h
  | cons x xs ih =>
    rw [matchTail_cons] at h
    cases hm : matchClose (x :: xs) with
    | some r =>
      rw [hm] at h
      obtain rfl : r = (ty, tok, rest) := by simpa using h
      exact matchClose_tok_b64 hm
    | none =>
      rw [hm] at h
      by_cases hx : x = '\n'
      · rw [if_pos hx] at h; exact absurd h (by simp)
      · rw [if_neg hx] at h; exact ih h

theorem matchBang_tok_b64 {xs : List Char} {ty : ImgType} {tok rest : List Char}
    (h : matchBang xs = some (ty, tok, rest)) : tok.all base64Char = true := by
  cases xs with
  | nil => simp [matchBang] at h
  | cons c xs =>
    cases xs with
    | nil => simp [matchBang] at h
    | cons c2 cs =>
      rw [matchBang_cons2] at h
      by_cases hb : c = '!' ∧ c2 = '['
      · rw [if_pos hb] at h; exact matchTail_tok_b64 h
      · rw [if_neg hb] at h; exact absurd h (by simp)

theorem findAll_tok_b64_aux : ∀ (n : Nat) (cs : List Char), cs.length ≤ n →
    ∀ m ∈ findAll cs, m.2.all base64Char = true := by
  intro n
  induction n with
  | zero =>
    intro cs h0 m hm
    have : cs = [] := List.eq_nil_of_length_eq_zero (Nat.le_zero.mp h0)
    subst this
    simp [findAll_nil] at hm
  | succ n ih =>
    intro cs h0 m hm
    cases cs with
    | nil => simp [findAll_nil] at hm
    | cons c cs =>
      simp only [List.length_cons] at h0
      rw [findAll_cons] at hm
      cases hb : matchBang (c :: cs) with
      | some r =>
        obtain ⟨ty, tok, rest⟩ := r
        rw [hb] at hm
        have hr := matchBang_length hb
        simp only [List.length_cons] at hr
        rcases List.mem_cons.mp hm with h | h
        · subst h; exact matchBang_tok_b64 hb
        · exact ih rest (by omega) m h
      | none =>
        rw [hb] at hm
        exact ih cs (by omega) m hm

theorem findAll_tok_b64 {cs : List Char} {m : ImgType × List Char}
    (hm : m ∈ findAll cs) : m.2.all base64Char = true :=
  findAll_tok_b64_aux cs.length cs (Nat.le_refl _) m hm

/-- The image payloads embedded by the renderer for the outputs of one
output entry, paired with the MIME type chosen by the renderer's
png-before-jpeg precedence; the payload is the notebook's raw base64 text
(normalized by concatenation). -/
def outPayloads : NbOutput → List (ImgType × List Char)
  | .display d =>
    match d.png with
    | some v => [(ImgType.png, pyJoin v)]
    | none =>
      match d.jpeg with
      | some v => [(ImgType.jpeg, pyJoin v)]
      | none => []
  | _ => []

/-- Image payloads embedded for one cell. -/
def cellPayloads : NbCell → List (ImgType × List Char)
  | .code _ outs => outs.flatMap outPayloads
  | _ => []

/-- All image payloads embedded by the renderer, in document order. -/
def nbPayloads (nb : Notebook) : List (ImgType × List Char) :=
  nb.cells.flatMap cellPayloads

/-- A payload in base64 text form: a single (non-fragmented) non-empty
string over the base64 alphabet. -/
def cleanPayload : PyText → Bool
  | .str s => decide (s ≠ []) && s.all base64Char
  | .list _ => false

/-- The payload chosen by the renderer's precedence is base64 text. -/
def cleanData (d : OutputData) : Bool :=
  match d.png with
  | some v => cleanPayload v
  | none =>
    match d.jpeg with
    | some v => cleanPayload v
    | none => true

/-- Every image payload the renderer will embed is base64 text. -/
def cleanOutput : NbOutput → Bool
  | .display d => cleanData d
  | _ => true

/-- Every image payload of the cell's outputs is base64 text. -/
def cleanCell : NbCell → Bool
  | .code _ outs => outs.all cleanOutput
  | _ => true

/-- Every image payload of the notebook is base64 text. -/
def cleanNotebook (nb : Notebook) : Bool :=
  nb.cells.all cleanCell

theorem sublist_flatMap {α β : Type} {f g : α → List β} (l : List α)
    (h : ∀ a ∈ l, List.Sublist (f a) (g a)) :
    List.Sublist (l.flatMap f) (l.flatMap g) := by
  induction l with
  | nil => exact List.Sublist.refl _
  | cons a l ih =>
    rw [List.flatMap_cons, List.flatMap_cons]
    exact (h a (List.mem_cons_self a l)).append
      (ih (fun b hb => h b (List.mem_cons_of_mem a hb)))

theorem outPayloads_display (d : OutputData) :
    outPayloads (.display d) =
      match d.png with
      | some v => [(ImgType.png, pyJoin v)]
      | none =>
        match d.jpeg with
        | some v => [(ImgType.jpeg, pyJoin v)]
        | none => [] := rfl

theorem renderOutput_display (d : OutputData) :
    renderOutput (.display d) =
      match d.png with
      | some img => [chs "![output](data:image/png;base64," ++ pyFStr img ++ [')'], []]
      | none =>
        match d.jpeg with
        | some img => [chs "![output](data:image/jpeg;base64," ++ pyFStr img ++ [')'], []]
        | none =>
          match d.svg with
          | some v => [pyJoin v, []]
          | none =>
            match d.html with
            | some v => [pyJoin v, []]
            | none =>
              match d.plain with
              | some v =>
                let text := pyJoin v
                if pyStrip text ≠ [] then [chs "```", pyRstrip text, chs "```", []]
                else []
              | none => [] := rfl

theorem outPayloads_sublist (o : NbOutput) (ho : cleanOutput o = true) :
    List.Sublist (outPayloads o) ((renderOutput o).flatMap findAll) := by
  cases o with
  | stream t => exact List.nil_sublist _
  | error tb => exact List.nil_sublist _
  | other => exact List.nil_sublist _
  | display d =>
    rw [show cleanOutput (.display d) = cleanData d from rfl] at ho
    unfold cleanData at ho
    rw [outPayloads_display, renderOutput_display]
    cases hp : d.png with
    | some v =>
      rw [hp] at ho
      dsimp only
      cases v with
      | list l => simp [cleanPayload] at ho
      | str s =>
        simp only [cleanPayload, Bool.and_eq_true, decide_eq_true_eq] at ho
        have hline : chs "![output](data:image/png;base64," ++ pyFStr (.str s) ++ [')'] =
            chs "![output](data:image/" ++ (chs "png;base64," ++ (s ++ [')'])) := by
          rw [show pyFStr (.str s) = s from rfl,
              show chs "![output](data:image/png;base64," =
                chs "![output](data:image/" ++ chs "png;base64," from rfl]
          simp [List.append_assoc]
        rw [List.flatMap_cons, List.flatMap_cons, List.flatMap_nil, hline,
            findAll_imgLine s matchMime_png ho.1 ho.2, findAll_nil]
        exact List.Sublist.refl _
    | none =>
      rw [hp] at ho
      dsimp only
      cases hj : d.jpeg with
      | some v =>
        rw [hj] at ho
        dsimp only
        cases v with
        | list l => simp [cleanPayload] at ho
        | str s =>
          simp only [cleanPayload, Bool.and_eq_true, decide_eq_true_eq] at ho
          have hline : chs "![output](data:image/jpeg;base64," ++ pyFStr (.str s) ++ [')'] =
              chs "![output](data:image/" ++ (chs "jpeg;base64," ++ (s ++ [')'])) := by
            rw [show pyFStr (.str s) = s from rfl,
                show chs "![output](data:image/jpeg;base64," =
                  chs "![output](data:image/" ++ chs "jpeg;base64," from rfl]
            simp [List.append_assoc]
          rw [List.flatMap_cons, List.flatMap_cons, List.flatMap_nil, hline,
              findAll_imgLine s matchMime_jpeg ho.1 ho.2, findAll_nil]
          exact List.Sublist.refl _
      | none =>
        dsimp only
        cases d.svg with
        | some v => exact List.nil_sublist _
        | none =>
          cases d.html with
          | some v => exact List.nil_sublist _
          | none =>
            cases d.plain with
            | some v => exact List.nil_sublist _
            | none => exact List.nil_sublist _

theorem cellPayloads_sublist (c : NbCell) (hc : cleanCell c = true) :
    List.Sublist (cellPayloads c) ((renderCell c).flatMap findAll) := by
  cases c with
  | markdown src => exact List.nil_sublist _
  | other => exact List.nil_sublist _
  | code src outs =>
    rw [show cleanCell (.code src outs) = outs.all cleanOutput from rfl] at hc
    rw [show cellPayloads (.code src outs) = outs.flatMap outPayloads from rfl]
    unfold renderCell
    rw [List.flatMap_append, List.flatMap_assoc]
    have h1 : List.Sublist (outs.flatMap outPayloads)
        (outs.flatMap (fun o => (renderOutput o).flatMap findAll)) :=
      sublist_flatMap outs (fun o hoo =>
        outPayloads_sublist o (by
          rw [List.all_eq_true] at hc
          exact hc o hoo))
    exact h1.trans (List.sublist_append_right _ _)

theorem joinNl_append_blank (l : List (List Char)) (h : l ≠ []) :
    joinNl (l ++ [[]]) = joinNl l ++ ['\n'] := by
  induction l with
  | nil => exact absurd rfl h
  | cons a l ih =>
    cases l with
    | nil => rfl
    | cons b rest =>
      rw [show joinNl ((a :: b :: rest) ++ [[]]) =
            a ++ '\n' :: joinNl ((b :: rest) ++ [[]]) from rfl,
          ih (by simp),
          show joinNl (a :: b :: rest) = a ++ '\n' :: joinNl (b :: rest) from rfl]
      simp

/-- A display output whose `image/png` payload is a fragment list, as the
notebook JSON may legally contain. -/
def listPayloadOut : NbOutput :=
  .display ⟨some (.list [chs "iVBORw0KGgo=", chs "AAAA"]), none, none, none, none⟩

/-- Claim C1: for a fragment-list `image/png` payload the renderer is
claimed to emit `![output](data:image/png;base64,<concatenated payload>)`.
The code instead interpolates the Python `repr` of the list into the
f-string, so the emitted line carries `['iVBORw0KGgo=', 'AAAA']` rather
than `iVBORw0KGgo=AAAA`, and the strict extractor finds no image in it. -/
theorem c1_fragment_list_payload_repr :
    renderOutput listPayloadOut =
      [chs "![output](data:image/png;base64,['iVBORw0KGgo=', 'AAAA'])", []]
    ∧ renderOutput listPayloadOut ≠
      [chs "![output](data:image/png;base64,iVBORw0KGgo=AAAA)", []]
    ∧ findAll (chs "![output](data:image/png;base64,['iVBORw0KGgo=', 'AAAA'])") = [] :=
  ⟨by decide, by decide, by decide⟩

/-- Claim C2: every image payload embedded by the renderer — a payload
being raw base64 text: a single non-empty string over the base64
alphabet — is re-extracted from the produced Markdown artifact by the
strict extractor byte-identically, in order (the extracted match list
contains the embedded payload list as a sublist; surrounding document text
may only contribute additional matches). -/
theorem c2_roundtrip_extraction (nb : Notebook) (title categories : List Char)
    (tags : List (List Char)) (h : cleanNotebook nb = true) :
    List.Sublist (nbPayloads nb)
      (findAll (convert_notebook_to_markdown nb title categories tags)) := by
  unfold convert_notebook_to_markdown nbPayloads
  rw [findAll_joinNl, List.flatMap_append, List.flatMap_assoc]
  have h1 : List.Sublist (nb.cells.flatMap cellPayloads)
      (nb.cells.flatMap (fun c => (renderCell c).flatMap findAll)) :=
    sublist_flatMap _ (fun c hcc => cellPayloads_sublist c (by
      unfold cleanNotebook at h
      rw [List.all_eq_true] at h
      exact h c hcc))
  exact h1.trans (List.sublist_append_right _ _)

/-- A concrete one-cell notebook with a PNG display output whose payload is
the base64 text of the 8-byte PNG signature. -/
def nbW : Notebook :=
  ⟨[.code (.str (chs "plt.plot()"))
      [.display ⟨some (.str (chs "iVBORw0KGgo=")), none, none, none, none⟩]]⟩

theorem c2_roundtrip_extraction_witness :
    cleanNotebook nbW = true ∧
    List.Sublist (nbPayloads nbW)
      (findAll (convert_notebook_to_markdown nbW (chs "T") (chs "coding") [chs "python"])) :=
  ⟨by decide, c2_roundtrip_extraction nbW (chs "T") (chs "coding") [chs "python"] (by decide)⟩

/-- Claim C3: an execute_result/display_data output emits at most one
representation, with fixed precedence image/png, image/jpeg, image/svg+xml,
text/html, text/plain: whichever key is present first fully determines the
emitted lines and all later keys are ignored; in particular an output with
both `image/png` and `text/html` renders only the PNG reference. -/
theorem c3_precedence (d : OutputData) :
    (∀ p, d.png = some p →
      renderOutput (.display d) =
        [chs "![output](data:image/png;base64," ++ pyFStr p ++ [')'], []])
    ∧ (∀ p, d.png = none → d.jpeg = some p →
      renderOutput (.display d) =
        [chs "![output](data:image/jpeg;base64," ++ pyFStr p ++ [')'], []])
    ∧ (∀ v, d.png = none → d.jpeg = none → d.svg = some v →
      renderOutput (.display d) = [pyJoin v, []])
    ∧ (∀ v, d.png = none → d.jpeg = none → d.svg = none → d.html = some v →
      renderOutput (.display d) = [pyJoin v, []])
    ∧ (∀ v, d.png = none → d.jpeg = none → d.svg = none → d.html = none →
        d.plain = some v →
      renderOutput (.display d) =
        (if pyStrip (pyJoin v) ≠ [] then [chs "```", pyRstrip (pyJoin v), chs "```", []]
         else []))
    ∧ renderOutput (.display ⟨some (.str (chs "iVBORw0KGgo=")), none, none,
        some (.str (chs "<b>html</b>")), none⟩) =
      [chs "![output](data:image/png;base64,iVBORw0KGgo=)", []] := by
  refine ⟨?_, ?_, ?_, ?_, ?_, by decide⟩
  · intro p hp; rw [renderOutput_display, hp]
  · intro p hp hj; rw [renderOutput_display, hp, hj]
  · intro v hp hj hs; rw [renderOutput_display, hp, hj, hs]
  · intro v hp hj hs hh; rw [renderOutput_display, hp, hj, hs, hh]
  · intro v hp hj hs hh ht; rw [renderOutput_display, hp, hj, hs, hh, ht]

theorem c3_precedence_witness :
    renderOutput (.display ⟨some (.str (chs "AAAA")), some (.str (chs "BBBB")),
        none, none, none⟩) =
      [chs "![output](data:image/png;base64,AAAA)", []] :=
  (c3_precedence ⟨some (.str (chs "AAAA")), some (.str (chs "BBBB")),
      none, none, none⟩).1 (.str (chs "AAAA")) rfl

/-- A one-cell notebook whose markdown source is a fragment list. -/
def nbMd : Notebook := ⟨[.markdown (.list [chs "# Title\n", chs "text"])]⟩

/-- Claim C4 counterexample: the claim says the rendered block is the plain
concatenation of the fragments (followed by a blank-line separator); the
produced artifact instead differs from that and equals the document built
with each fragment as its own joined line, which inserts a newline between
`"# Title\n"` and `"text"`. -/
theorem c4_counterexample :
    convert_notebook_to_markdown nbMd (chs "T") (chs "coding") [chs "python"] ≠
      joinNl (frontMatterLines (chs "T") (chs "coding") [chs "python"] ++
        [chs "# Title\n" ++ chs "text", []])
    ∧ convert_notebook_to_markdown nbMd (chs "T") (chs "coding") [chs "python"] =
      joinNl (frontMatterLines (chs "T") (chs "coding") [chs "python"] ++
        [chs "# Title\n", chs "text", []]) :=
  ⟨by decide, by decide⟩

/-- Claim C4 (amended): for a markdown cell with a fragment-list source the
renderer appends one line entry per fragment plus a blank separator entry,
so in the document the rendered block equals the fragments joined with a
newline inserted between consecutive fragments (not their plain
concatenation), followed by the blank-line separator. -/
theorem c4_markdown_fragment_lines (l : List (List Char)) :
    renderCell (.markdown (.list l)) = l ++ [[]]
    ∧ (l ≠ [] →
      joinNl (renderCell (.markdown (.list l))) = joinNl l ++ ['\n']) := by
  constructor
  · rfl
  · intro h
    rw [show renderCell (.markdown (.list l)) = l ++ [[]] from rfl]
    exact joinNl_append_blank l h

theorem c4_markdown_fragment_lines_witness :
    joinNl (renderCell (.markdown (.list [chs "# Title\n", chs "text"]))) =
      joinNl [chs "# Title\n", chs "text"] ++ ['\n'] :=
  (c4_markdown_fragment_lines [chs "# Title\n", chs "text"]).2 (by decide)

/-- Claim C8: every token captured by the strict pattern consists only of
base64-alphabet characters, hence contains no whitespace, newline or
carriage return, so the validator's newline branch can never fire on
strictly extracted records; and a would-be token holding an embedded
newline produces zero strict matches. -/
theorem c8_strict_tokens_clean :
    (∀ (content : List Char) (m : ImgType × List Char), m ∈ findAll content →
      m.2.all base64Char = true ∧ ¬('\n' ∈ m.2 ∨ '\r' ∈ m.2))
    ∧ findAll (chs "![output](data:image/png;base64,AB\nCD)") = [] := by
  constructor
  · intro content m hm
    have h := findAll_tok_b64 hm
    refine ⟨h, ?_⟩
    rw [List.all_eq_true] at h
    rintro (hn | hn)
    · exact absurd (h _ hn) (by decide)
    · exact absurd (h _ hn) (by decide)
  · decide

theorem c8_strict_tokens_clean_witness :
    ((ImgType.png, chs "AAAA") ∈ findAll (chs "![output](data:image/png;base64,AAAA)"))
    ∧ ¬('\n' ∈ chs "AAAA" ∨ '\r' ∈ chs "AAAA") :=
  ⟨by decide,
   (c8_strict_tokens_clean.1 (chs "![output](data:image/png;base64,AAAA)")
      (ImgType.png, chs "AAAA") (by decide)).2⟩

/-- Outcome of the validator's per-image checks on one extracted image,
independent of every other image: validity flag, error entries contributed,
size entries contributed. -/
def imgStep (i : Nat) (ty : ImgType) (tok : List Char) :
    Bool × List String × List Nat :=
  if '\n' ∈ tok ∨ '\r' ∈ tok then (false, [nlErrMsg i], [])
  else
    match pyB64decode tok with
    | .error e => (false, [decodeErrMsg i e], [])
    | .ok decoded =>
      match ty with
      | .png =>
        if decoded.take 8 = pngSig then (true, [], [decoded.length])
        else (false, [pngHdrErrMsg i], [decoded.length])
      | _ =>
        if decoded.take 2 = jpegSig then (true, [], [decoded.length])
        else (false, [jpegHdrErrMsg i], [decoded.length])

theorem valLoop_cons (i : Nat) (ty : ImgType) (tok : List Char)
    (ms : List (ImgType × List Char)) (acc : VResults) :
    valLoop i ((ty, tok) :: ms) acc =
      valLoop (i + 1) ms
        { acc with
          valid_images := acc.valid_images + (if (imgStep i ty tok).1 then 1 else 0),
          invalid_images := acc.invalid_images + (if (imgStep i ty tok).1 then 0 else 1),
          errors := acc.errors ++ (imgStep i ty tok).2.1,
          image_sizes := acc.image_sizes ++ (imgStep i ty tok).2.2 } := by
  conv_lhs => rw [valLoop]
  unfold imgStep
  by_cases hnl : '\n' ∈ tok ∨ '\r' ∈ tok
  · rw [if_pos hnl, if_pos hnl]
    congr 1 <;> simp
  · rw [if_neg hnl, if_neg hnl]
    cases hd : pyB64decode tok with
    | error e =>
      congr 1 <;> simp
    | ok decoded =>
      cases ty with
      | png =>
        dsimp only
        by_cases hh : decoded.take 8 = pngSig
        · rw [if_pos hh, if_pos hh]
          congr 1 <;> simp
        · rw [if_neg hh, if_neg hh]
          congr 1 <;> simp
      | jpeg =>
        dsimp only
        by_cases hh : decoded.take 2 = jpegSig
        · rw [if_pos hh, if_pos hh]
          congr 1 <;> simp
        · rw [if_neg hh, if_neg hh]
          congr 1 <;> simp
      | jpg =>
        dsimp only
        by_cases hh : decoded.take 2 = jpegSig
        · rw [if_pos hh, if_pos hh]
          congr 1 <;> simp
        · rw [if_neg hh, if_neg hh]
          congr 1 <;> simp

/-- The per-image outcomes of a match list, starting at ordinal `i`. -/
def imgOutcomes (i : Nat) (ms : List (ImgType × List Char)) :
    List (Bool × List String × List Nat) :=
  (ms.enumFrom i).map (fun p => imgStep p.1 p.2.1 p.2.2)

theorem valLoop_hom : ∀ (ms : List (ImgType × List Char)) (i : Nat) (acc : VResults),
    valLoop i ms acc =
      { total_images := acc.total_images,
        valid_images := acc.valid_images + (imgOutcomes i ms).countP (fun r => r.1),
        invalid_images := acc.invalid_images + (imgOutcomes i ms).countP (fun r => !r.1),
        errors := acc.errors ++ (imgOutcomes i ms).flatMap (fun r => r.2.1),
        image_sizes := acc.image_sizes ++ (imgOutcomes i ms).flatMap (fun r => r.2.2) } := by
  intro ms
  induction ms with
  | nil =>
    intro i acc
    simp [valLoop, imgOutcomes]
  | cons m ms ih =>
    intro i acc
    obtain ⟨ty, tok⟩ := m
    rw [valLoop_cons, ih]
    unfold imgOutcomes
    rw [List.enumFrom_cons]
    simp only [List.map_cons, List.countP_cons, List.flatMap_cons]
    congr 1
    · dsimp only
      by_cases hb : (imgStep i ty tok).1 <;> simp [hb] <;> omega <;> omega
    · dsimp only
      by_cases hb : (imgStep i ty tok).1 <;> simp [hb] <;> omega <;> omega
    · simp
    · simp

theorem countP_bool_total {α : Type} (p : α → Bool) (l : List α) :
    l.countP p + l.countP (fun a => !p a) = l.length := by
  induction l with
  | nil => simp
  | cons a l ih =>
    rw [List.countP_cons, List.countP_cons]
    by_cases hp : p a <;> simp [hp] <;> omega

/-- Claim C5: the report satisfies `valid_images + invalid_images ==
total_images`, where `total_images` is the number of strict-pattern
matches; every extracted record is counted in exactly one of the two. -/
theorem c5_count_invariant (content : List Char) :
    (validate_markdown_images content).valid_images +
      (validate_markdown_images content).invalid_images =
      (validate_markdown_images content).total_images
    ∧ (validate_markdown_images content).total_images = (findAll content).length := by
  unfold validate_markdown_images
  rw [valLoop_hom]
  constructor
  · simp only [Nat.zero_add]
    have := countP_bool_total (fun r : Bool × List String × List Nat => r.1)
      (imgOutcomes 1 (findAll content))
    unfold imgOutcomes at this ⊢
    simp only [List.length_map, List.enumFrom_length] at this
    omega
  · rfl

/-- Claim C6: for each extracted image the validator checks, in order:
(1) a token holding a newline or carriage return is invalid with the
newline reason; (2) otherwise decode is attempted, failure being invalid
with the decode error text; (3) on success PNG requires the first 8
decoded bytes to equal the PNG signature and JPEG/JPG the first 2 bytes to
equal ff d8, mismatch invalid with the header error, match valid.  In
particular `![output](data:image/png;base64,AAAA)` validates to
`invalid_images = 1` with the error "Image 1: Invalid PNG header". -/
theorem c6_per_image_checks :
    (∀ (i : Nat) (ty : ImgType) (tok : List Char)
        (ms : List (ImgType × List Char)) (acc : VResults),
      valLoop i ((ty, tok) :: ms) acc =
        if '\n' ∈ tok ∨ '\r' ∈ tok then
          valLoop (i + 1) ms
            { acc with errors := acc.errors ++ [nlErrMsg i],
                       invalid_images := acc.invalid_images + 1 }
        else
          match pyB64decode tok with
          | .error e =>
            valLoop (i + 1) ms
              { acc with errors := acc.errors ++ [decodeErrMsg i e],
                         invalid_images := acc.invalid_images + 1 }
          | .ok decoded =>
            match ty with
            | .png =>
              if decoded.take 8 = pngSig then
                valLoop (i + 1) ms
                  { acc with image_sizes := acc.image_sizes ++ [decoded.length],
                             valid_images := acc.valid_images + 1 }
              else
                valLoop (i + 1) ms
                  { acc with image_sizes := acc.image_sizes ++ [decoded.length],
                             errors := acc.errors ++ [pngHdrErrMsg i],
                             invalid_images := acc.invalid_images + 1 }
            | _ =>
              if decoded.take 2 = jpegSig then
                valLoop (i + 1) ms
                  { acc with image_sizes := acc.image_sizes ++ [decoded.length],
                             valid_images := acc.valid_images + 1 }
              else
                valLoop (i + 1) ms
                  { acc with image_sizes := acc.image_sizes ++ [decoded.length],
                             errors := acc.errors ++ [jpegHdrErrMsg i],
                             invalid_images := acc.invalid_images + 1 })
    ∧ validate_markdown_images (chs "![output](data:image/png;base64,AAAA)") =
        ⟨1, 0, 1, ["Image 1: Invalid PNG header"], [3]⟩ := by
  constructor
  · intro i ty tok ms acc
    conv_lhs => rw [valLoop]
  · decide

theorem imgStep_errors_length (i : Nat) (ty : ImgType) (tok : List Char) :
    ((imgStep i ty tok).2.1).length = (if (imgStep i ty tok).1 then 0 else 1) := by
  unfold imgStep
  by_cases hnl : '\n' ∈ tok ∨ '\r' ∈ tok
  · simp [hnl]
  · simp only [if_neg hnl]
    cases pyB64decode tok with
    | error e => simp
    | ok d =>
      cases ty
      · dsimp only
        by_cases hh : d.take 8 = pngSig <;> simp [hh]
      · dsimp only
        by_cases hh : d.take 2 = jpegSig <;> simp [hh]
      · dsimp only
        by_cases hh : d.take 2 = jpegSig <;> simp [hh]

theorem imgOutcomes_errors_length :
    ∀ (ms : List (ImgType × List Char)) (i : Nat),
    ((imgOutcomes i ms).flatMap (fun r => r.2.1)).length =
      (imgOutcomes i ms).countP (fun r => !r.1) := by
  intro ms
  induction ms with
  | nil => intro i; rfl
  | cons m ms ih =>
    intro i
    obtain ⟨ty, tok⟩ := m
    unfold imgOutcomes
    rw [List.enumFrom_cons, List.map_cons, List.flatMap_cons, List.countP_cons,
        List.length_append]
    have h1 := imgStep_errors_length i ty tok
    have h2 := ih (i + 1)
    unfold imgOutcomes at h2
    rw [h2, h1]
    dsimp only
    by_cases hb : (imgStep i ty tok).1 <;> simp [hb] <;> omega

/-- Claim C7: validation is contained per image and always completes: the
report equals the aggregation of each image's independent outcome (so one
bad image only contributes its own error entry and invalid count), and
every invalid image contributes exactly one entry to the error list. -/
theorem c7_per_image_containment :
    (∀ content : List Char,
      validate_markdown_images content =
        { total_images := (findAll content).length,
          valid_images := (imgOutcomes 1 (findAll content)).countP (fun r => r.1),
          invalid_images := (imgOutcomes 1 (findAll content)).countP (fun r => !r.1),
          errors := (imgOutcomes 1 (findAll content)).flatMap (fun r => r.2.1),
          image_sizes := (imgOutcomes 1 (findAll content)).flatMap (fun r => r.2.2) })
    ∧ (∀ content : List Char,
      (validate_markdown_images content).errors.length =
        (validate_markdown_images content).invalid_images) := by
  have h1 : ∀ content : List Char,
      validate_markdown_images content =
        { total_images := (findAll content).length,
          valid_images := (imgOutcomes 1 (findAll content)).countP (fun r => r.1),
          invalid_images := (imgOutcomes 1 (findAll content)).countP (fun r => !r.1),
          errors := (imgOutcomes 1 (findAll content)).flatMap (fun r => r.2.1),
          image_sizes := (imgOutcomes 1 (findAll content)).flatMap (fun r => r.2.2) } := by
    intro content
    unfold validate_markdown_images
    rw [valLoop_hom]
    simp
  refine ⟨h1, ?_⟩
  intro content
  rw [h1 content]
  exact imgOutcomes_errors_length (findAll content) 1

/-- Successful decode, as a Boolean on the modelled `b64decode` result. -/
def exceptOk : Except String (List Nat) → Bool
  | .ok _ => true
  | .error _ => false

theorem imgStep_sizes_length (i : Nat) (ty : ImgType) (tok : List Char) :
    ((imgStep i ty tok).2.2).length =
      (if (!decide ('\n' ∈ tok ∨ '\r' ∈ tok)) && exceptOk (pyB64decode tok)
       then 1 else 0) := by
  unfold imgStep
  by_cases hnl : '\n' ∈ tok ∨ '\r' ∈ tok
  · simp [hnl]
  · simp only [if_neg hnl, hnl, decide_False]
    cases pyB64decode tok with
    | error e => simp [exceptOk]
    | ok d =>
      cases ty
      · dsimp only
        by_cases hh : d.take 8 = pngSig <;> simp [hh, exceptOk]
      · dsimp only
        by_cases hh : d.take 2 = jpegSig <;> simp [hh, exceptOk]
      · dsimp only
        by_cases hh : d.take 2 = jpegSig <;> simp [hh, exceptOk]

theorem imgOutcomes_sizes_length :
    ∀ (ms : List (ImgType × List Char)) (i : Nat),
    ((imgOutcomes i ms).flatMap (fun r => r.2.2)).length =
      ms.countP (fun m => (!decide ('\n' ∈ m.2 ∨ '\r' ∈ m.2)) &&
        exceptOk (pyB64decode m.2)) := by
  intro ms
  induction ms with
  | nil => intro i; rfl
  | cons m ms ih =>
    intro i
    obtain ⟨ty, tok⟩ := m
    unfold imgOutcomes
    rw [List.enumFrom_cons, List.map_cons, List.flatMap_cons, List.countP_cons,
        List.length_append]
    have h1 := imgStep_sizes_length i ty tok
    have h2 := ih (i + 1)
    unfold imgOutcomes at h2
    rw [h2, h1]
    dsimp only
    omega

/-- Claim C10: an entry is appended to `image_sizes` exactly for each image
that passes the newline check and decodes successfully, including images
later marked invalid by a header mismatch; in particular for
`![output](data:image/png;base64,AAAA)` one size is recorded while
`valid_images` stays 0, so the size list can be longer than the valid
count, and nothing is recorded for newline- or decode-rejected images. -/
theorem c10_sizes_decoded :
    (∀ content : List Char,
      (validate_markdown_images content).image_sizes.length =
        (findAll content).countP
          (fun m => (!decide ('\n' ∈ m.2 ∨ '\r' ∈ m.2)) &&
            exceptOk (pyB64decode m.2)))
    ∧ (validate_markdown_images
        (chs "![output](data:image/png;base64,AAAA)")).image_sizes.length = 1
    ∧ (validate_markdown_images
        (chs "![output](data:image/png;base64,AAAA)")).valid_images = 0 := by
  refine ⟨?_, by decide, by decide⟩
  intro content
  unfold validate_markdown_images
  rw [valLoop_hom]
  simp only [List.nil_append]
  exact imgOutcomes_sizes_length (findAll content) 1

theorem all_b64_len {tok : List Char} (h : tok.all base64Char = true) :
    tok.all lenChar = true := by
  rw [List.all_eq_true] at h ⊢
  intro c hc
  simp [lenChar, h c hc]

theorem lenMatchClose_of_strict {xs : List Char} {r : ImgType × List Char × List Char}
    (h : matchClose xs = some r) : lenMatchClose xs = some r := by
  obtain ⟨ty, tok, rest⟩ := r
  unfold matchClose at h
  unfold lenMatchClose
  cases h1 : dropLit (chs "](data:image/") xs with
  | none => rw [h1] at h; exact absurd h (by simp)
  | some cs1 =>
    rw [h1] at h
    dsimp only at h ⊢
    cases h2 : matchMime cs1 with
    | none => rw [h2] at h; exact absurd h (by simp)
    | some tyr =>
      obtain ⟨ty2, cs2⟩ := tyr
      dsimp only at h ⊢
      rw [h2] at h
      dsimp only at h
      by_cases he : cs2.takeWhile base64Char = []
      · rw [if_pos he] at h; exact absurd h (by simp)
      · rw [if_neg he] at h
        cases hd : cs2.dropWhile base64Char with
        | nil => rw [hd] at h; exact absurd h (by simp)
        | cons c r2 =>
          rw [hd] at h
          dsimp only at h
          by_cases hc : c = ')'
          · rw [if_pos hc] at h
            simp only [Option.some_inj, Prod.mk.injEq] at h
            obtain ⟨hty, htok, hrest⟩ := h
            have hall : (cs2.takeWhile base64Char).all base64Char = true :=
              takeWhile_all base64Char cs2
            have hsplit : cs2.takeWhile base64Char ++ ')' :: r2 = cs2 := by
              conv_rhs => rw [← List.takeWhile_append_dropWhile (p := base64Char) (l := cs2)]
              rw [hd, hc]
            have htw : cs2.takeWhile lenChar = cs2.takeWhile base64Char := by
              rw [← hsplit, takeWhile_append_neg (by decide),
                  takeWhile_of_all (all_b64_len hall),
                  takeWhile_append_neg (by decide), takeWhile_of_all hall]
            have hdw : cs2.dropWhile lenChar = ')' :: r2 := by
              rw [← hsplit, dropWhile_append_neg (by decide),
                  dropWhile_of_all (all_b64_len hall), List.nil_append]
            rw [htw, if_neg he, hdw]
            dsimp only
            rw [if_pos rfl, hty, htok, hrest]
          · rw [if_neg hc] at h; exact absurd h (by simp)

theorem lenMatchTail_cons (c : Char) (cs : List Char) :
    lenMatchTail (c :: cs) =
      match lenMatchClose (c :: cs) with
      | some r => some r
      | none => if c = '\n' then none else lenMatchTail cs := rfl

theorem lenMatchTail_of_strict {xs : List Char}
    (h : (matchTail xs).isSome = true) : (lenMatchTail xs).isSome = true := by
  induction xs with
  | nil => simp [matchTail] at h
  | cons x xs ih =>
    rw [matchTail_cons] at h
    rw [lenMatchTail_cons]
    cases hm : matchClose (x :: xs) with
    | some r =>
      rw [lenMatchClose_of_strict hm]
      simp
    | none =>
      rw [hm] at h
      by_cases hx : x = '\n'
      · rw [if_pos hx] at h; simp at h
      · rw [if_neg hx] at h
        cases hl : lenMatchClose (x :: xs) with
        | some r => simp
        | none =>
          dsimp only
          rw [if_neg hx]
          exact ih h

theorem lenMatchBang_of_strict {xs : List Char}
    (h : (matchBang xs).isSome = true) : (lenMatchBang xs).isSome = true := by
  cases xs with
  | nil => simp [matchBang] at h
  | cons c xs =>
    cases xs with
    | nil => simp [matchBang] at h
    | cons c2 cs =>
      rw [matchBang_cons2] at h
      rw [show lenMatchBang (c :: c2 :: cs) =
          if c = '!' ∧ c2 = '[' then lenMatchTail cs else none from rfl]
      by_cases hb : c = '!' ∧ c2 = '['
      · rw [if_pos hb] at h
        rw [if_pos hb]
        exact lenMatchTail_of_strict h
      · rw [if_neg hb] at h; simp at h

theorem pyIsSpace_not_b64 {c : Char} (h : pyIsSpace c = true) :
    b64Val c = none ∧ c ≠ '=' := by
  simp only [pyIsSpace, Bool.or_eq_true, beq_iff_eq] at h
  rcases h with ((((rfl | rfl) | rfl) | rfl) | rfl) | rfl <;>
    exact ⟨by decide, by decide⟩

theorem a2b_skip {c : Char} (h1 : b64Val c = none) (h2 : c ≠ '=')
    (cs : List Char) (q l p : Nat) (acc : List Nat) :
    a2b (c :: cs) q l p acc = a2b cs q l p acc := by
  conv_lhs => rw [a2b]
  rw [if_neg h2, h1]

theorem a2b_congr_tail {xs ys : List Char} (c : Char)
    (h : ∀ (q l p : Nat) (acc : List Nat), a2b xs q l p acc = a2b ys q l p acc)
    (q l p : Nat) (acc : List Nat) :
    a2b (c :: xs) q l p acc = a2b (c :: ys) q l p acc := by
  conv_lhs => rw [a2b]
  conv_rhs => rw [a2b]
  by_cases hc : c = '='
  · rw [if_pos hc, if_pos hc]
    by_cases h2 : 2 ≤ q
    · rw [if_pos h2, if_pos h2]
      by_cases h4 : 4 ≤ q + (p + 1)
      · rw [if_pos h4, if_pos h4]
      · rw [if_neg h4, if_neg h4]; exact h q l (p + 1) acc
    · rw [if_neg h2, if_neg h2]; exact h q l p acc
  · rw [if_neg hc, if_neg hc]
    cases hb : b64Val c with
    | none => exact h q l p acc
    | some v =>
      cases q with
      | zero => exact h 1 v 0 acc
      | succ q1 =>
        cases q1 with
        | zero => exact h 2 (v % 16) 0 ((l * 4 + v / 16) :: acc)
        | succ q2 =>
          cases q2 with
          | zero => exact h 3 (v % 4) 0 ((l * 16 + v / 4) :: acc)
          | succ q3 => exact h 0 0 0 ((l * 64 + v) :: acc)

theorem a2b_filter : ∀ (cs : List Char) (q l p : Nat) (acc : List Nat),
    a2b (cs.filter (fun c => !pyIsSpace c)) q l p acc = a2b cs q l p acc := by
  intro cs
  induction cs with
  | nil => intro q l p acc; rfl
  | cons c cs ih =>
    intro q l p acc
    by_cases hw : pyIsSpace c
    · rw [show (c :: cs).filter (fun c => !pyIsSpace c) =
          cs.filter (fun c => !pyIsSpace c) from by simp [List.filter_cons, hw]]
      obtain ⟨hb1, hb2⟩ := pyIsSpace_not_b64 hw
      exact (ih q l p acc).trans (a2b_skip hb1 hb2 cs q l p acc).symm
    · rw [show (c :: cs).filter (fun c => !pyIsSpace c) =
          c :: cs.filter (fun c => !pyIsSpace c) from by
        simp [List.filter_cons, hw]]
      exact a2b_congr_tail c ih q l p acc

theorem filter_nonWs_absorb {p : Char → Bool}
    (hp : ∀ c, pyIsSpace c = false → p c = true) :
    ∀ l : List Char,
    (l.filter p).filter (fun c => !pyIsSpace c) = l.filter (fun c => !pyIsSpace c) := by
  intro l
  induction l with
  | nil => rfl
  | cons c l ih =>
    by_cases hw : pyIsSpace c
    · by_cases hpc : p c
      · simp [List.filter_cons, hpc, hw, ih]
      · simp [List.filter_cons, hpc, hw, ih]
    · have := hp c (by simpa using hw)
      simp [List.filter_cons, this, hw, ih]

theorem filter_nonWs_dropWhile (l : List Char) :
    (l.dropWhile pyIsSpace).filter (fun c => !pyIsSpace c) =
      l.filter (fun c => !pyIsSpace c) := by
  induction l with
  | nil => rfl
  | cons c l ih =>
    by_cases hw : pyIsSpace c
    · simp [List.dropWhile_cons, hw, ih]
    · simp [List.dropWhile_cons, hw]

theorem filter_nonWs_pyStrip (l : List Char) :
    (pyStrip l).filter (fun c => !pyIsSpace c) = l.filter (fun c => !pyIsSpace c) := by
  unfold pyStrip
  rw [List.filter_reverse, filter_nonWs_dropWhile, List.filter_reverse,
      List.reverse_reverse, filter_nonWs_dropWhile]

theorem filter_nonWs_pyClean (tok : List Char) :
    (pyClean tok).filter (fun c => !pyIsSpace c) =
      tok.filter (fun c => !pyIsSpace c) := by
  unfold pyClean
  rw [filter_nonWs_absorb (p := fun c => decide (c ≠ ' '))
        (fun c hc => by
          simp only [decide_eq_true_eq]
          rintro rfl
          simp [pyIsSpace] at hc),
      filter_nonWs_absorb (p := fun c => decide (c ≠ '\r'))
        (fun c hc => by
          simp only [decide_eq_true_eq]
          rintro rfl
          simp [pyIsSpace] at hc),
      filter_nonWs_absorb (p := fun c => decide (c ≠ '\n'))
        (fun c hc => by
          simp only [decide_eq_true_eq]
          rintro rfl
          simp [pyIsSpace] at hc),
      filter_nonWs_pyStrip]

theorem filter_nonWs_stripAllWs (tok : List Char) :
    (stripAllWs tok).filter (fun c => !pyIsSpace c) =
      tok.filter (fun c => !pyIsSpace c) := by
  unfold stripAllWs
  exact filter_nonWs_absorb
    (fun c hc => by simp [hc]) tok

theorem debugDecode_eq_stripAllWs (tok : List Char) :
    debugDecode tok = pyB64decode (stripAllWs tok) := by
  unfold debugDecode pyB64decode
  calc a2b (pyClean tok) 0 0 0 []
      = a2b ((pyClean tok).filter (fun c => !pyIsSpace c)) 0 0 0 [] :=
        (a2b_filter (pyClean tok) 0 0 0 []).symm
    _ = a2b (tok.filter (fun c => !pyIsSpace c)) 0 0 0 [] := by
        rw [filter_nonWs_pyClean]
    _ = a2b ((stripAllWs tok).filter (fun c => !pyIsSpace c)) 0 0 0 [] := by
        rw [filter_nonWs_stripAllWs]
    _ = a2b (stripAllWs tok) 0 0 0 [] := a2b_filter (stripAllWs tok) 0 0 0 []

/-- Claim C9: the lenient diagnostic pattern accepts everything the strict
pattern accepts (a match of the strict fixed tail is a lenient match with
identical groups, and a strict whole-pattern match implies a lenient one)
and additionally tokens with interior newlines, spaces and carriage
returns; and the diagnostic decode of a token behaves exactly as a decode
of the token with all whitespace stripped. -/
theorem c9_lenient_diagnostics :
    (∀ (xs : List Char) (r : ImgType × List Char × List Char),
      matchClose xs = some r → lenMatchClose xs = some r)
    ∧ (∀ xs : List Char, (matchBang xs).isSome = true →
        (lenMatchBang xs).isSome = true)
    ∧ lenFindAll (chs "![output](data:image/png;base64,AB\nCD)") =
        [(ImgType.png, chs "AB\nCD")]
    ∧ findAll (chs "![output](data:image/png;base64,AB\nCD)") = []
    ∧ (∀ tok : List Char, debugDecode tok = pyB64decode (stripAllWs tok)) :=
  ⟨fun _ _ h => lenMatchClose_of_strict h,
   fun _ h => lenMatchBang_of_strict h,
   by decide, by decide,
   debugDecode_eq_stripAllWs⟩

theorem c9_lenient_diagnostics_witness :
    lenMatchClose (chs "](data:image/png;base64,AAAA)") =
      some (ImgType.png, chs "AAAA", []) :=
  c9_lenient_diagnostics.1 (chs "](data:image/png;base64,AAAA)")
    (ImgType.png, chs "AAAA", []) (by decide)

/-- A one-cell notebook whose PNG payload is base64 text followed by a
trailing newline, as notebook files commonly store it. -/
def nbNl : Notebook :=
  ⟨[.code (.str (chs "x"))
      [.display ⟨some (.str (chs "AAAA\n")), none, none, none, none⟩]]⟩

set_option maxRecDepth 4096 in
/-- Claim C2 counterexample: the renderer embeds the payload `"AAAA\n"`,
but the strict extractor finds no image at all in the produced artifact
(the newline interrupts the token before the closing parenthesis), so this
embedded payload is not re-extracted byte-identically. -/
theorem c2_counterexample :
    nbPayloads nbNl = [(ImgType.png, chs "AAAA\n")]
    ∧ findAll (convert_notebook_to_markdown nbNl (chs "T") (chs "coding")
        [chs "python"]) = [] :=
  ⟨by decide, by decide⟩
